import Mathlib

set_option maxHeartbeats 1000000

/- Shallow embedding of the financial-document-analyzer core
   (src/tools.py).  Strings are modelled as `List Char`; Python float
   arithmetic is modelled with exact rationals; the `re` patterns used by
   the tools are modelled by executable matchers.  The character classes
   `\d` and the IGNORECASE flag are modelled over ASCII (the documents the
   pipeline normalizes are ASCII-only by construction of `clean_text`). -/

/-- Python whitespace (`str.isspace`, which is also the character set of the
regex class `\s` for `str` patterns and of `str.strip()` with no argument). -/
def isPySpace (c : Char) : Bool :=
  (9 ≤ c.toNat && c.toNat ≤ 13) || (28 ≤ c.toNat && c.toNat ≤ 32) ||
  c.toNat = 133 || c.toNat = 160 || c.toNat = 5760 ||
  (8192 ≤ c.toNat && c.toNat ≤ 8202) || c.toNat = 8232 || c.toNat = 8233 ||
  c.toNat = 8239 || c.toNat = 8287 || c.toNat = 12288

/-- The 7-bit range kept by `re.sub(r'[^\x00-\x7F]+', ' ', text)`. -/
def isAsciiCh (c : Char) : Bool := c.toNat ≤ 127

/-- Index of the last element of the list satisfying `q`, if any. -/
def lastIdxBy (q : Char → Bool) : List Char → Option Nat
  | [] => none
  | c :: rest =>
    match lastIdxBy q rest with
    | some j => some (j + 1)
    | none => if q c then some 0 else none

/-- Index of the last newline of the list, if any. -/
def lastNlIdx (l : List Char) : Option Nat := lastIdxBy (fun c => c = '\n') l

/-- Fuelled engine for `re.sub(r'\n\s*\n', '\n\n', text)` with Python `re`
semantics: scan left to right; at a `'\n'` the greedy `\s*` makes the match
end at the last newline of the maximal whitespace run that follows, the
match is replaced by two newlines, and scanning resumes after the match.
The fuel only forces termination; `subBlank` supplies `l.length`, which is
always enough. -/
def subBlankF : Nat → List Char → List Char
  | _, [] => []
  | 0, l => l
  | fuel + 1, c :: rest =>
    if c = '\n' then
      match lastNlIdx (rest.takeWhile isPySpace) with
      | some j => '\n' :: '\n' :: subBlankF fuel (rest.drop (j + 1))
      | none => '\n' :: subBlankF fuel rest
    else c :: subBlankF fuel rest

/-- `re.sub(r'\n\s*\n', '\n\n', text)`: collapse blank-line runs. -/
def subBlank (l : List Char) : List Char := subBlankF l.length l

/-- Fuelled engine for `re.sub(r' +', ' ', text)`: each maximal run of
spaces is replaced by a single space. -/
def subSpacesF : Nat → List Char → List Char
  | _, [] => []
  | 0, l => l
  | fuel + 1, c :: rest =>
    if c = ' ' then ' ' :: subSpacesF fuel (rest.dropWhile (fun d => d = ' '))
    else c :: subSpacesF fuel rest

/-- `re.sub(r' +', ' ', text)`: collapse space runs. -/
def subSpaces (l : List Char) : List Char := subSpacesF l.length l

/-- Fuelled engine for `re.sub(r'[^\x00-\x7F]+', ' ', text)`: each maximal
run of non-ASCII characters is replaced by a single space. -/
def subNonAsciiF : Nat → List Char → List Char
  | _, [] => []
  | 0, l => l
  | fuel + 1, c :: rest =>
    if isAsciiCh c then c :: subNonAsciiF fuel rest
    else ' ' :: subNonAsciiF fuel (rest.dropWhile (fun d => !isAsciiCh d))

/-- `re.sub(r'[^\x00-\x7F]+', ' ', text)`: drop non-ASCII content. -/
def subNonAscii (l : List Char) : List Char := subNonAsciiF l.length l

/-- Remove trailing Python whitespace (the right half of `str.strip()`). -/
def dropTrail (l : List Char) : List Char := (l.reverse.dropWhile isPySpace).reverse

/-- `str.strip()`: remove leading and trailing Python whitespace. -/
def stripChars (l : List Char) : List Char := dropTrail (l.dropWhile isPySpace)

/-- `FinancialDocumentTool._clean_text`: the shared text normalizer.
`if not text: return ""`, then the three `re.sub` passes in source order,
then `str.strip()`. -/
def clean_text (l : List Char) : List Char :=
  if l = [] then [] else stripChars (subNonAscii (subSpaces (subBlank l)))

/- ==================== InvestmentTool ====================
Numeric values carried by the metric/ratio dictionaries are Python floats;
they are modelled here by exact rationals (the values the tool extracts
are decimal literals, and the claims under study do not depend on binary
floating-point rounding). -/

/-- Round a rational to the nearest integer, ties to even: the rounding of
Python `round`. -/
def rndHalfEven (q : ℚ) : ℤ :=
  if q - ⌊q⌋ < 1 / 2 then ⌊q⌋
  else if 1 / 2 < q - ⌊q⌋ then ⌊q⌋ + 1
  else if ⌊q⌋ % 2 = 0 then ⌊q⌋ else ⌊q⌋ + 1

/-- Python `round(x, 2)` over exact rationals. -/
def pyRound2 (q : ℚ) : ℚ := (rndHalfEven (q * 100) : ℚ) / 100

/-- The metrics dictionary built by `InvestmentTool._extract_financial_metrics`:
a missing key is `none`, never a null placeholder. -/
structure Metrics where
  revenue : Option ℚ
  net_income : Option ℚ
deriving DecidableEq

/-- `InvestmentTool._calculate_investment_ratios`: `profit_margin` is set iff
`'revenue' in metrics and 'net_income' in metrics and metrics['revenue']`
(Python float truthiness: nonzero).  The result models the ratios dict,
`some` iff the `profit_margin` key is present. -/
def calculate_investment_ratios (metrics : Metrics) : Option ℚ :=
  match metrics.revenue, metrics.net_income with
  | some rev, some ni => if rev ≠ 0 then some (pyRound2 (ni / rev * 100)) else none
  | _, _ => none

/-- `InvestmentTool._calculate_investment_score`: baseline 50, one threshold
bonus on `ratios.get('profit_margin', 0)`, clamped by `max(0, min(100, score))`. -/
def calculate_investment_score (metrics : Metrics) (ratios : Option ℚ) : ℚ :=
  max 0 (min 100 (50 +
    (if ratios.getD 0 > 15 then 15
     else if ratios.getD 0 > 10 then 10
     else if ratios.getD 0 > 5 then 5 else (0 : ℚ))))

/-- `InvestmentTool._generate_recommendations`: one recommendation string is
appended, chosen by fixed score thresholds. -/
def generate_recommendations (metrics : Metrics) (ratios : Option ℚ) (score : ℚ) :
    List String :=
  if score ≥ 80 then ["STRONG BUY: Company shows excellent financial metrics"]
  else if score ≥ 60 then ["BUY: Company shows good financial health"]
  else if score ≥ 40 then ["HOLD: Company shows average financial metrics"]
  else ["SELL/AVOID: Company shows concerning financial metrics"]

/- ==================== RiskTool ==================== -/

/-- One entry of the `financial_risks` / `market_risks` lists. -/
structure RiskFlag where
  risk : String
  severity : String
deriving DecidableEq

/-- The dictionary returned by `RiskTool.assess_risk` on its success path. -/
structure RiskAssessment where
  financial_risks : List RiskFlag
  market_risks : List RiskFlag
  overall_risk_level : String
  risk_score : Int
  risk_factors : List String
deriving DecidableEq

/-- Python `str.lower()` (ASCII letters; the keyword scans below only involve
ASCII keywords). -/
def lowerList (l : List Char) : List Char := l.map Char.toLower

/-- Python substring test `p in l`. -/
def containsSub : List Char → List Char → Bool
  | [], p => p.isPrefixOf ([] : List Char)
  | c :: t, p => p.isPrefixOf (c :: t) || containsSub t p

/-- `RiskTool.assess_risk`: keyword-presence scan; baseline risk score 50,
`+10` for "debt", `+5` for "volatile"/"uncertainty", level by thresholds
(≥70 high, ≥40 medium, else low).  The body raises no exception, so the
`except` branch of the source is dead and the success-path dictionary is
always returned. -/
def assess_risk (financial_data : List Char) : RiskAssessment :=
  let lower := lowerList financial_data
  let hasDebt := containsSub lower "debt".toList
  let hasVol := containsSub lower "volatile".toList || containsSub lower "uncertainty".toList
  let score : Int := 50 + (if hasDebt then 10 else 0) + (if hasVol then 5 else 0)
  { financial_risks := if hasDebt then [⟨"Debt levels need review", "medium"⟩] else []
    market_risks := if hasVol then [⟨"Market volatility", "medium"⟩] else []
    overall_risk_level := if score ≥ 70 then "high" else if score ≥ 40 then "medium" else "low"
    risk_score := score
    risk_factors := (if hasDebt then ["High debt levels"] else []) ++
      (if hasVol then ["Market volatility"] else []) }

/- ============= InvestmentTool._extract_financial_metrics =============
The two revenue patterns `revenue[:\s]*\$?([\d,]+\.?\d*)\s*(mil...)?` /
`sales...`, and the two profit patterns `net\s+income[:\s]*\$?([\d,]+\.?\d*)`
/ `net\s+profit...`, with `re.IGNORECASE`, are modelled by executable
matchers.  On these patterns the regex engine is deterministic: giving back
characters from `[:\s]*`, `\s+` or `\$?` can never satisfy the literal or
digit that must follow, and the trailing `\s*(million|billion|thousand)?`
is fully optional, so it never makes a position fail and never changes the
capture group. -/

/-- Case-insensitive literal match (IGNORECASE over ASCII letters): consume
the lowercase pattern `pat` from the head of the input and return the
remainder. -/
def stripLowerCI : List Char → List Char → Option (List Char)
  | [], l => some l
  | _ :: _, [] => none
  | p :: ps, c :: cs => if c.toLower = p then stripLowerCI ps cs else none

/-- The class `[\d,]` (ASCII reading of `\d`). -/
def isDigitComma (c : Char) : Bool := c.isDigit || c = ','

/-- The class `[:\s]`. -/
def isColonWs (c : Char) : Bool := c = ':' || isPySpace c

/-- The common pattern tail `[:\s]*\$?([\d,]+\.?\d*)` applied at the current
position; returns the text of the capture group if the position matches. -/
def matchMoneyTail (l : List Char) : Option (List Char) :=
  let r2 := l.dropWhile isColonWs
  let r3 := match r2 with
    | '$' :: u => u
    | _ => r2
  let ds := r3.takeWhile isDigitComma
  if ds = [] then none
  else
    let r4 := r3.dropWhile isDigitComma
    let fr := if r4.head? = some '.' then '.' :: r4.tail.takeWhile Char.isDigit else []
    some (ds ++ fr)

/-- `revenue[:\s]*\$?([\d,]+\.?\d*)\s*(million|billion|thousand)?` at the
current position. -/
def matchRevenueAt (l : List Char) : Option (List Char) :=
  (stripLowerCI "revenue".toList l).bind matchMoneyTail

/-- `sales[:\s]*\$?([\d,]+\.?\d*)\s*(million|billion|thousand)?` at the
current position. -/
def matchSalesAt (l : List Char) : Option (List Char) :=
  (stripLowerCI "sales".toList l).bind matchMoneyTail

/-- `net\s+<kw>[:\s]*\$?([\d,]+\.?\d*)` at the current position: `net`, at
least one whitespace, the keyword, then the money tail. -/
def matchNetAt (kw : List Char) (l : List Char) : Option (List Char) :=
  match stripLowerCI "net".toList l with
  | none => none
  | some r =>
    if r.takeWhile isPySpace = [] then none
    else (stripLowerCI kw (r.dropWhile isPySpace)).bind matchMoneyTail

def matchNetIncomeAt (l : List Char) : Option (List Char) := matchNetAt "income".toList l

def matchNetProfitAt (l : List Char) : Option (List Char) := matchNetAt "profit".toList l

/-- `re.search`: try the matcher at positions 0, 1, ... (through the empty
suffix) and return the first capture found. -/
def searchCap (f : List Char → Option (List Char)) : List Char → Option (List Char)
  | [] => f []
  | c :: t =>
    match f (c :: t) with
    | some cap => some cap
    | none => searchCap f t

/-- Position of the first match of `f`, if any. -/
def searchPos (f : List Char → Option (List Char)) : List Char → Option Nat
  | [] => if (f []).isSome then some 0 else none
  | c :: t =>
    if (f (c :: t)).isSome then some 0
    else (searchPos f t).map (fun i => i + 1)

/-- Value of a list of ASCII digits read in base 10. -/
def digitsVal (ds : List Char) : ℕ := ds.foldl (fun a c => a * 10 + (c.toNat - 48)) 0

/-- `float(match.group(1).replace(',', ''))` for a capture of
`([\d,]+\.?\d*)`: drop the commas and read the decimal number; `none`
models the `ValueError` raised when no digit remains (e.g. capture ","). -/
def parseNum (cap : List Char) : Option ℚ :=
  let s := cap.filter (fun c => c ≠ ',')
  if s.any Char.isDigit then
    let ip := s.takeWhile Char.isDigit
    let r := s.dropWhile Char.isDigit
    let fr := if r.head? = some '.' then r.tail.takeWhile Char.isDigit else []
    some ((digitsVal ip : ℚ) + (digitsVal fr : ℚ) / (10 : ℚ) ^ fr.length)
  else none

/-- The revenue loop of `_extract_financial_metrics`: `re.search` with the
`revenue` pattern over the whole text; only if it finds nothing is the
`sales` synonym tried (first matching pattern wins). -/
def revenueCap (t : List Char) : Option (List Char) :=
  match searchCap matchRevenueAt t with
  | some cap => some cap
  | none => searchCap matchSalesAt t

/-- The profit loop of `_extract_financial_metrics`: `net income` first,
then the `net profit` synonym. -/
def netIncomeCap (t : List Char) : Option (List Char) :=
  match searchCap matchNetIncomeAt t with
  | some cap => some cap
  | none => searchCap matchNetProfitAt t

/-- Store a found capture as the metric value; a `ValueError` from `float`
aborts extraction (modelled by `Except.error`). -/
def metricValue (cap : Option (List Char)) : Except Unit (Option ℚ) :=
  match cap with
  | none => Except.ok none
  | some c =>
    match parseNum c with
    | some v => Except.ok (some v)
    | none => Except.error ()

/-- `InvestmentTool._extract_financial_metrics`: revenue loop first, then
the profit loop; an absent metric is an absent key. -/
def extract_financial_metrics (t : List Char) : Except Unit Metrics := do
  let rev ← metricValue (revenueCap t)
  let ni ← metricValue (netIncomeCap t)
  return ⟨rev, ni⟩

/-- A context does not extend a preceding `([\d,]+\.?\d*)` capture: its first
character (if any) is no digit, no comma and no dot. -/
def numBoundary : List Char → Bool
  | [] => true
  | c :: _ => !isDigitComma c && !(c == '.')

/-- No match of `f` starts at any of the first `k` positions of `l`. -/
def noMatchUpTo (f : List Char → Option (List Char)) : List Char → Nat → Bool
  | _, 0 => true
  | [], _ + 1 => true
  | c :: t, k + 1 => (f (c :: t)).isNone && noMatchUpTo f t k

/-- The success record of `InvestmentTool.analyze_investment`. -/
structure AnalysisSuccess where
  extracted_metrics : Metrics
  calculated_ratios : Option ℚ
  investment_score : ℚ
  recommendations : List String
deriving DecidableEq

/-- `InvestmentTool.analyze_investment`: extraction, ratios, score,
recommendations; the `except` branch (`status: error`) is reached exactly
when extraction raises. -/
def analyze_investment (t : List Char) : Except Unit AnalysisSuccess := do
  let m ← extract_financial_metrics t
  let ratios := calculate_investment_ratios m
  let score := calculate_investment_score m ratios
  return ⟨m, ratios, score, generate_recommendations m ratios score⟩

/- ==================== FinancialDocumentTool.read_data ====================
The file system is modelled as a partial map from paths to file payloads.
A PDF payload is the ordered sequence of its pages, each of which either
yields extracted text or raises (the behaviour of `page.extract_text()`
inside `_read_pdf`'s per-page `try`).  Reading a file whose bytes do not
parse as its extension suggests is modelled by the corresponding reader's
failure string (the reader-internal `except` branches). -/

/-- Outcome of `page.extract_text()` for one PDF page. -/
inductive PageResult
  | text (t : List Char)
  | raised (e : List Char)
deriving DecidableEq

/-- Payload of a file on disk, as seen by the three readers. -/
inductive FileData
  | pdf (pages : List PageResult)
  | txt (content : List Char)
  | table (rows cols : Nat) (preview : List Char)
deriving DecidableEq

/-- The file system: `os.path.exists` is `(files p).isSome`. -/
structure FileSystem where
  files : List Char → Option FileData

/-- Decimal digits of a natural number (Python `str(n)` for `n : Nat`). -/
def natToChars (n : Nat) : List Char := Nat.toDigits 10 n

/-- `str.join`: concatenate with a separator between elements. -/
def joinSep (sep : List Char) : List (List Char) → List Char
  | [] => []
  | [x] => x
  | x :: y :: rest => x ++ sep ++ joinSep sep (y :: rest)

/-- The page banner `f"--- Page {n} ---\n{text}"` (without the text). -/
def pdfHeader (n : Nat) : List Char :=
  "--- Page ".toList ++ natToChars n ++ " ---".toList

/-- The inline marker `f"--- Page {n} [Error extracting: {e}] ---"`. -/
def pdfErrMarker (n : Nat) (e : List Char) : List Char :=
  "--- Page ".toList ++ natToChars n ++ " [Error extracting: ".toList ++ e ++ "] ---".toList

/-- The `for page_num, page in enumerate(reader.pages, 1)` loop of
`_read_pdf`: pages with text are cleaned and appended with their banner,
pages whose extraction raises get the inline error marker, pages with empty
extracted text are skipped (`if text:`). -/
def pdfBlocks : Nat → List PageResult → List (List Char)
  | _, [] => []
  | n, PageResult.text t :: rest =>
    if t = [] then pdfBlocks (n + 1) rest
    else (pdfHeader n ++ '\n' :: clean_text t) :: pdfBlocks (n + 1) rest
  | n, PageResult.raised e :: rest => pdfErrMarker n e :: pdfBlocks (n + 1) rest

/-- `FinancialDocumentTool._read_pdf` on an open PDF: the per-page loop then
`"\n\n".join(full_text)`. -/
def read_pdf_pages (pages : List PageResult) : List Char :=
  joinSep "\n\n".toList (pdfBlocks 1 pages)

/-- `FinancialDocumentTool._read_pdf` dispatcher part: non-PDF bytes make
`PdfReader` raise, caught as the processing-failed payload. -/
def read_pdf (fd : FileData) : List Char :=
  match fd with
  | FileData.pdf pages => read_pdf_pages pages
  | _ => "PDF processing failed: invalid PDF".toList

/-- `FinancialDocumentTool._read_text`: decode (lossily; the decoded content
is the stored text) and normalize. -/
def read_text (fd : FileData) : List Char :=
  match fd with
  | FileData.txt content => clean_text content
  | _ => "Text file processing failed: decode error".toList

/-- `FinancialDocumentTool._read_spreadsheet`: shape metadata plus the
first-50-rows preview, not normalized. -/
def read_spreadsheet (name : List Char) (fd : FileData) : List Char :=
  match fd with
  | FileData.table r c preview =>
    "--- Spreadsheet Data: ".toList ++ name ++ " ---\nShape: ".toList ++
    natToChars r ++ " rows × ".toList ++ natToChars c ++
    " columns\n\nFirst 50 rows preview:\n".toList ++ preview
  | _ => "Spreadsheet processing failed: parse error".toList

/-- `pathlib.Path(p).name`: the part after the last separator (pathlib's
normalization of trailing separators and dot segments is not modelled). -/
def pathName (p : List Char) : List Char :=
  (p.reverse.takeWhile (fun c => c ≠ '/')).reverse

/-- `pathlib.Path(p).suffix`: from the last dot of the name, provided that
dot is neither the first nor the last character of the name. -/
def pathSuffix (p : List Char) : List Char :=
  let name := pathName p
  match lastIdxBy (fun c => c = '.') name with
  | some i => if 0 < i ∧ i + 1 < name.length then name.drop i else []
  | none => []

/-- `Path(file_path).suffix.lower()` as computed by `read_data`. -/
def extLower (p : List Char) : List Char := lowerList (pathSuffix p)

/-- The supported extension set of `read_data`. -/
def supportedExts : List (List Char) :=
  [".pdf".toList, ".txt".toList, ".csv".toList, ".xlsx".toList, ".xls".toList]

/-- `FinancialDocumentTool.read_data`: existence check first, then dispatch
on the lowered suffix, with uniform `ERROR:` payloads; a total function
(the source wraps everything in `try`, and no branch of this model
raises). -/
def read_data (fs : FileSystem) (file_path : List Char) : List Char :=
  match fs.files file_path with
  | none => "ERROR: File not found: ".toList ++ file_path
  | some fd =>
    let ext := extLower file_path
    if ext = ".pdf".toList then read_pdf fd
    else if ext = ".txt".toList then read_text fd
    else if ext = ".csv".toList ∨ ext = ".xlsx".toList ∨ ext = ".xls".toList then
      read_spreadsheet (pathName file_path) fd
    else "ERROR: Unsupported file type: ".toList ++ ext

/-- A list in which, after every newline, the following maximal whitespace
run contains no newline beyond an immediately adjacent one: exactly the
lists on which the blank-line pass is the identity. -/
def nlGapOk (rest : List Char) : Bool :=
  match lastNlIdx (rest.takeWhile isPySpace) with
  | none => true
  | some 0 => true
  | some (_ + 1) => false

def blankOk : List Char → Bool
  | [] => true
  | c :: rest => (if c = '\n' then nlGapOk rest else true) && blankOk rest

/-- No two adjacent spaces: exactly the lists on which the space-collapsing
pass is the identity. -/
def noTwoSp : List Char → Bool
  | [] => true
  | c :: rest =>
    (match rest.head? with
     | some d => !(c = ' ' && d = ' ')
     | none => true) && noTwoSp rest

/- Fuel irrelevance: with fuel at least the length of the list, the fuelled
engines compute their fuel-free meaning. -/

theorem dropWhile_len_le (p : Char → Bool) (l : List Char) :
    (l.dropWhile p).length ≤ l.length :=
  (List.dropWhile_suffix p).sublist.length_le

theorem subBlankF_nil (f : Nat) : subBlankF f [] = [] := by cases f <;> rfl

theorem subBlank_nil : subBlank [] = [] := rfl

theorem subBlankF_eq_subBlank :
    ∀ (fuel : Nat) (l : List Char), l.length ≤ fuel → subBlankF fuel l = subBlank l := by
  intro fuel
  induction fuel using Nat.strong_induction_on with
  | _ fuel ih =>
    intro l hl
    cases l with
    | nil => rw [subBlankF_nil, subBlank_nil]
    | cons c rest =>
      simp only [List.length_cons] at hl
      obtain ⟨f, rfl⟩ : ∃ f, fuel = f + 1 := ⟨fuel - 1, by omega⟩
      have hrest : rest.length ≤ f := by omega
      show subBlankF (f + 1) (c :: rest) = subBlankF (rest.length + 1) (c :: rest)
      by_cases hc : c = '\n'
      · subst hc
        rcases h : lastNlIdx (rest.takeWhile isPySpace) with _ | j
        · have e1 : subBlankF f rest = subBlank rest := ih f (by omega) rest hrest
          have e2 : subBlankF rest.length rest = subBlank rest :=
            ih rest.length (by omega) rest (Nat.le_refl _)
          simp [subBlankF, h, e1, e2]
        · have hdl : (rest.drop (j + 1)).length ≤ rest.length := by
            simp only [List.length_drop]; omega
          have e1 : subBlankF f (rest.drop (j + 1)) = subBlank (rest.drop (j + 1)) :=
            ih f (by omega) _ (Nat.le_trans hdl hrest)
          have e2 : subBlankF rest.length (rest.drop (j + 1)) = subBlank (rest.drop (j + 1)) :=
            ih rest.length (by omega) _ hdl
          simp [subBlankF, h, e1, e2]
      · have e1 : subBlankF f rest = subBlank rest := ih f (by omega) rest hrest
        have e2 : subBlankF rest.length rest = subBlank rest :=
          ih rest.length (by omega) rest (Nat.le_refl _)
        simp [subBlankF, hc, e1, e2]

/-- Unfolding law of `subBlank` on a nonempty list. -/
theorem subBlank_cons (c : Char) (rest : List Char) :
    subBlank (c :: rest) =
      if c = '\n' then
        match lastNlIdx (rest.takeWhile isPySpace) with
        | some j => '\n' :: '\n' :: subBlank (rest.drop (j + 1))
        | none => '\n' :: subBlank rest
      else c :: subBlank rest := by
  show subBlankF (rest.length + 1) (c :: rest) = _
  by_cases hc : c = '\n'
  · subst hc
    rcases h : lastNlIdx (rest.takeWhile isPySpace) with _ | j
    · rw [show subBlankF (rest.length + 1) ('\n' :: rest) =
          '\n' :: subBlankF rest.length rest by simp [subBlankF, h]]
      rw [subBlankF_eq_subBlank rest.length rest (Nat.le_refl _)]
      simp [h]
    · rw [show subBlankF (rest.length + 1) ('\n' :: rest) =
          '\n' :: '\n' :: subBlankF rest.length (rest.drop (j + 1)) by simp [subBlankF, h]]
      rw [subBlankF_eq_subBlank rest.length (rest.drop (j + 1))
        (by simp only [List.length_drop]; omega)]
      simp [h]
  · rw [show subBlankF (rest.length + 1) (c :: rest) =
        c :: subBlankF rest.length rest by simp [subBlankF, hc]]
    rw [subBlankF_eq_subBlank rest.length rest (Nat.le_refl _)]
    simp [hc]

theorem subSpacesF_nil (f : Nat) : subSpacesF f [] = [] := by cases f <;> rfl

theorem subSpaces_nil : subSpaces [] = [] := rfl

theorem subSpacesF_eq_subSpaces :
    ∀ (fuel : Nat) (l : List Char), l.length ≤ fuel → subSpacesF fuel l = subSpaces l := by
  intro fuel
  induction fuel using Nat.strong_induction_on with
  | _ fuel ih =>
    intro l hl
    cases l with
    | nil => rw [subSpacesF_nil, subSpaces_nil]
    | cons c rest =>
      simp only [List.length_cons] at hl
      obtain ⟨f, rfl⟩ : ∃ f, fuel = f + 1 := ⟨fuel - 1, by omega⟩
      have hrest : rest.length ≤ f := by omega
      show subSpacesF (f + 1) (c :: rest) = subSpacesF (rest.length + 1) (c :: rest)
      by_cases hc : c = ' '
      · have hdl := dropWhile_len_le (fun d => d = ' ') rest
        have e1 := ih f (by omega) (rest.dropWhile (fun d => d = ' ')) (Nat.le_trans hdl hrest)
        have e2 := ih rest.length (by omega) (rest.dropWhile (fun d => d = ' ')) hdl
        simp [subSpacesF, hc, e1, e2]
      · have e1 := ih f (by omega) rest hrest
        have e2 := ih rest.length (by omega) rest (Nat.le_refl _)
        simp [subSpacesF, hc, e1, e2]

/-- Unfolding law of `subSpaces` on a nonempty list. -/
theorem subSpaces_cons (c : Char) (rest : List Char) :
    subSpaces (c :: rest) =
      if c = ' ' then ' ' :: subSpaces (rest.dropWhile (fun d => d = ' '))
      else c :: subSpaces rest := by
  show subSpacesF (rest.length + 1) (c :: rest) = _
  by_cases hc : c = ' '
  · rw [show subSpacesF (rest.length + 1) (c :: rest) =
        ' ' :: subSpacesF rest.length (rest.dropWhile (fun d => d = ' ')) by
      simp [subSpacesF, hc]]
    rw [subSpacesF_eq_subSpaces rest.length _ (dropWhile_len_le _ _)]
    simp [hc]
  · rw [show subSpacesF (rest.length + 1) (c :: rest) =
        c :: subSpacesF rest.length rest by simp [subSpacesF, hc]]
    rw [subSpacesF_eq_subSpaces rest.length rest (Nat.le_refl _)]
    simp [hc]

theorem subNonAsciiF_nil (f : Nat) : subNonAsciiF f [] = [] := by cases f <;> rfl

theorem subNonAscii_nil : subNonAscii [] = [] := rfl

theorem subNonAsciiF_eq_subNonAscii :
    ∀ (fuel : Nat) (l : List Char), l.length ≤ fuel → subNonAsciiF fuel l = subNonAscii l := by
  intro fuel
  induction fuel using Nat.strong_induction_on with
  | _ fuel ih =>
    intro l hl
    cases l with
    | nil => rw [subNonAsciiF_nil, subNonAscii_nil]
    | cons c rest =>
      simp only [List.length_cons] at hl
      obtain ⟨f, rfl⟩ : ∃ f, fuel = f + 1 := ⟨fuel - 1, by omega⟩
      have hrest : rest.length ≤ f := by omega
      show subNonAsciiF (f + 1) (c :: rest) = subNonAsciiF (rest.length + 1) (c :: rest)
      by_cases hc : isAsciiCh c
      · have e1 := ih f (by omega) rest hrest
        have e2 := ih rest.length (by omega) rest (Nat.le_refl _)
        simp [subNonAsciiF, hc, e1, e2]
      · have hdl := dropWhile_len_le (fun d => !isAsciiCh d) rest
        have e1 := ih f (by omega) (rest.dropWhile (fun d => !isAsciiCh d))
          (Nat.le_trans hdl hrest)
        have e2 := ih rest.length (by omega) (rest.dropWhile (fun d => !isAsciiCh d)) hdl
        simp [subNonAsciiF, hc, e1, e2]

/-- Unfolding law of `subNonAscii` on a nonempty list. -/
theorem subNonAscii_cons (c : Char) (rest : List Char) :
    subNonAscii (c :: rest) =
      if isAsciiCh c then c :: subNonAscii rest
      else ' ' :: subNonAscii (rest.dropWhile (fun d => !isAsciiCh d)) := by
  show subNonAsciiF (rest.length + 1) (c :: rest) = _
  by_cases hc : isAsciiCh c
  · rw [show subNonAsciiF (rest.length + 1) (c :: rest) =
        c :: subNonAsciiF rest.length rest by simp [subNonAsciiF, hc]]
    rw [subNonAsciiF_eq_subNonAscii rest.length rest (Nat.le_refl _)]
    simp [hc]
  · rw [show subNonAsciiF (rest.length + 1) (c :: rest) =
        ' ' :: subNonAsciiF rest.length (rest.dropWhile (fun d => !isAsciiCh d)) by
      simp [subNonAsciiF, hc]]
    rw [subNonAsciiF_eq_subNonAscii rest.length _ (dropWhile_len_le _ _)]
    simp [hc]

/- ==================== Claims C3, C8, C9, C10 ==================== -/

/-- Claim C3: the ratio calculator omits `profit_margin` exactly when
`revenue` is absent, `net_income` is absent, or `revenue == 0`; otherwise it
yields `round(net_income / revenue * 100, 2)`.  It is a total function
(no divide-by-zero failure) and absence is the only other outcome (no
sentinel value). -/
theorem ratios_profit_margin_spec (m : Metrics) :
    (calculate_investment_ratios m = none ↔
      m.revenue = none ∨ m.net_income = none ∨ m.revenue = some 0) ∧
    (∀ rev ni : ℚ, m.revenue = some rev → m.net_income = some ni → rev ≠ 0 →
      calculate_investment_ratios m = some (pyRound2 (ni / rev * 100))) := by
  obtain ⟨rev, ni⟩ := m
  cases rev with
  | none => simp [calculate_investment_ratios]
  | some r =>
    cases ni with
    | none => simp [calculate_investment_ratios]
    | some n =>
      by_cases hr : r = 0
      · subst hr
        simp [calculate_investment_ratios]
      · constructor
        · simp [calculate_investment_ratios, hr]
        · intro rev' ni' h1 h2 h3
          simp only [Option.some.injEq] at h1 h2
          subst h1; subst h2
          simp [calculate_investment_ratios, hr]

theorem ratios_profit_margin_spec_witness :
    calculate_investment_ratios ⟨some 200, some 30⟩ = some (pyRound2 ((30 : ℚ) / 200 * 100)) :=
  (ratios_profit_margin_spec ⟨some 200, some 30⟩).2 200 30 rfl rfl (by norm_num)

/-- Claim C8: the investment score is always within `[0, 100]`, and on empty
metrics and empty ratios it is exactly the baseline 50, with the single HOLD
recommendation. -/
theorem score_bounds_and_empty_case :
    (∀ (m : Metrics) (ratios : Option ℚ),
        0 ≤ calculate_investment_score m ratios ∧ calculate_investment_score m ratios ≤ 100) ∧
    calculate_investment_score ⟨none, none⟩ none = 50 ∧
    generate_recommendations ⟨none, none⟩ none (calculate_investment_score ⟨none, none⟩ none) =
      ["HOLD: Company shows average financial metrics"] := by
  refine ⟨fun m ratios => ?_, by norm_num [calculate_investment_score], ?_⟩
  · unfold calculate_investment_score
    split_ifs <;> norm_num
  · norm_num [calculate_investment_score, generate_recommendations]

/-- Claim C9: for every metrics/ratios input the score lies in `[50, 65]`
(baseline 50 plus at most one bonus of 15), so the recommendation list the
scorer can produce is always a single element, and that element is the BUY
or the HOLD message: the STRONG BUY and SELL/AVOID tiers are unreachable. -/
theorem score_range_recommendation_tiers (m : Metrics) (ratios : Option ℚ) :
    50 ≤ calculate_investment_score m ratios ∧
    calculate_investment_score m ratios ≤ 65 ∧
    (generate_recommendations m ratios (calculate_investment_score m ratios) =
        ["BUY: Company shows good financial health"] ∨
      generate_recommendations m ratios (calculate_investment_score m ratios) =
        ["HOLD: Company shows average financial metrics"]) ∧
    (generate_recommendations m ratios (calculate_investment_score m ratios)).length = 1 := by
  have hb : 50 ≤ calculate_investment_score m ratios ∧
      calculate_investment_score m ratios ≤ 65 := by
    unfold calculate_investment_score
    split_ifs <;> norm_num
  refine ⟨hb.1, hb.2, ?_, ?_⟩
  · unfold generate_recommendations
    split_ifs with h1 h2 h3
    · exfalso; linarith [hb.2]
    · exact Or.inl rfl
    · exact Or.inr rfl
    · exfalso; linarith [hb.1]
  · unfold generate_recommendations
    split_ifs <;> rfl

/-- Claim C10: for every input text the risk score of the success-path
result is one of 50, 55, 60, 65 (baseline 50, +10 for "debt", +5 for
"volatile"/"uncertainty"), hence the overall risk level is always
"medium": the "high" (≥ 70) and "low" (< 40) levels are unreachable. -/
theorem risk_score_and_level (t : List Char) :
    ((assess_risk t).risk_score = 50 ∨ (assess_risk t).risk_score = 55 ∨
      (assess_risk t).risk_score = 60 ∨ (assess_risk t).risk_score = 65) ∧
    (assess_risk t).overall_risk_level = "medium" := by
  rcases Bool.eq_false_or_eq_true (containsSub (lowerList t) "debt".toList) with h1 | h1 <;>
    rcases Bool.eq_false_or_eq_true (containsSub (lowerList t) "volatile".toList ||
      containsSub (lowerList t) "uncertainty".toList) with h2 | h2 <;>
    simp only [assess_risk, h1, h2] <;> decide

/- Substring facts for the error payloads. -/

theorem isPrefixOf_append_self (p y : List Char) : p.isPrefixOf (p ++ y) = true := by
  induction p with
  | nil => cases y <;> rfl
  | cons c t ih => simp [List.isPrefixOf, ih]

theorem containsSub_of_parts (x p y : List Char) : containsSub (x ++ (p ++ y)) p = true := by
  induction x with
  | nil =>
    rw [List.nil_append]
    cases hpy : p ++ y with
    | nil =>
      obtain ⟨hp, hy⟩ := List.append_eq_nil.mp hpy
      subst hp; subst hy; rfl
    | cons c t =>
      show (p.isPrefixOf (c :: t) || containsSub t p) = true
      rw [← hpy, isPrefixOf_append_self]
      rfl
  | cons a x' ih =>
    show (p.isPrefixOf (a :: (x' ++ (p ++ y))) || containsSub (x' ++ (p ++ y)) p) = true
    rw [ih, Bool.or_true]

/- ==================== Claims C4, C5, C6 ==================== -/

/-- Claim C4 counterexample: a path with an unsupported extension that does
not exist on disk.  `read_data` checks existence first, so the payload is
the not-found error and does not contain "Unsupported file type". -/
theorem unsupported_ext_nonexistent_path :
    extLower "report.docx".toList = ".docx".toList ∧
    ".docx".toList ∉ supportedExts ∧
    read_data ⟨fun _ => none⟩ "report.docx".toList =
      "ERROR: File not found: report.docx".toList ∧
    containsSub (read_data ⟨fun _ => none⟩ "report.docx".toList)
      "Unsupported file type".toList = false := by
  refine ⟨by decide, by decide, by decide, by decide⟩

/-- Claim C4 (amended): for every existing file whose extension is outside
the supported set {.pdf, .txt, .csv, .xlsx, .xls}, `read_data` returns an
error payload containing "Unsupported file type" (and, being a total
function, does not raise). -/
theorem unsupported_ext_error_payload (fs : FileSystem) (p : List Char)
    (hex : (fs.files p).isSome = true) (hs : extLower p ∉ supportedExts) :
    containsSub (read_data fs p) "Unsupported file type".toList = true := by
  obtain ⟨fd, hfd⟩ := Option.isSome_iff_exists.mp hex
  simp only [supportedExts, List.mem_cons, List.not_mem_nil, or_false, not_or] at hs
  obtain ⟨h1, h2, h3, h4, h5⟩ := hs
  have hor : ¬(extLower p = ".csv".toList ∨ extLower p = ".xlsx".toList ∨
      extLower p = ".xls".toList) := by
    intro hor
    rcases hor with h | h | h
    · exact h3 h
    · exact h4 h
    · exact h5 h
  unfold read_data
  rw [hfd]
  show containsSub (if extLower p = ".pdf".toList then read_pdf fd else _) _ = true
  rw [if_neg h1, if_neg h2, if_neg hor]
  have hconst : "ERROR: Unsupported file type: ".toList ++ extLower p =
      "ERROR: ".toList ++ ("Unsupported file type".toList ++ (": ".toList ++ extLower p)) := by
    have h : "ERROR: Unsupported file type: ".toList =
        ("ERROR: ".toList ++ "Unsupported file type".toList) ++ ": ".toList := by decide
    rw [h]
    simp [List.append_assoc]
  rw [hconst]
  exact containsSub_of_parts _ _ _

theorem unsupported_ext_error_payload_witness :
    containsSub
      (read_data
        ⟨fun p => if p = "report.docx".toList then some (FileData.txt []) else none⟩
        "report.docx".toList)
      "Unsupported file type".toList = true :=
  unsupported_ext_error_payload _ _ (by decide) (by decide)

/-- Claim C5: for every supported extension, `read_data` on a path that does
not exist returns an error payload containing "not found"; the model is a
total function, so no exception escapes the ingestion boundary. -/
theorem missing_file_error_payload (fs : FileSystem) (p : List Char)
    (hsupp : extLower p ∈ supportedExts) (h : fs.files p = none) :
    containsSub (read_data fs p) "not found".toList = true := by
  unfold read_data
  rw [h]
  have hsplit : "ERROR: File not found: ".toList ++ p =
      "ERROR: File ".toList ++ ("not found".toList ++ (": ".toList ++ p)) := by
    have hc : "ERROR: File not found: ".toList =
        ("ERROR: File ".toList ++ "not found".toList) ++ ": ".toList := by decide
    rw [hc]
    simp [List.append_assoc]
  rw [hsplit]
  exact containsSub_of_parts _ _ _

theorem missing_file_error_payload_witness :
    containsSub (read_data ⟨fun _ => none⟩ "a.pdf".toList) "not found".toList = true :=
  missing_file_error_payload ⟨fun _ => none⟩ "a.pdf".toList (by decide) rfl

theorem pdfBlocks_eq_filterMap (pages : List PageResult) :
    ∀ n, pdfBlocks n pages =
      List.filterMap
        (fun pr : Nat × PageResult =>
          match pr with
          | (k, PageResult.text t) =>
            if t = [] then none else some (pdfHeader k ++ '\n' :: clean_text t)
          | (k, PageResult.raised e) => some (pdfErrMarker k e))
        (List.enumFrom n pages) := by
  induction pages with
  | nil => intro n; rfl
  | cons pg rest ih =>
    intro n
    cases pg with
    | text t =>
      by_cases ht : t = []
      · simp [pdfBlocks, List.enumFrom, List.filterMap, ht, ih (n + 1)]
      · simp [pdfBlocks, List.enumFrom, List.filterMap, ht, ih (n + 1)]
    | raised e =>
      simp [pdfBlocks, List.enumFrom, List.filterMap, ih (n + 1)]

/-- Claim C6: for every PDF (an ordered sequence of pages, each of which
either yields text or raises), the reader emits, in original page order, the
cleaned text of each nonempty page and an inline error marker for exactly
the raising pages, and continues past failures; in particular a 3-page PDF
whose page 2 raises yields pages 1 and 3 normalized around the page-2
marker. -/
theorem pdf_partial_failure_tolerance :
    (∀ pages : List PageResult,
      read_pdf_pages pages =
        joinSep "\n\n".toList
          (List.filterMap
            (fun pr : Nat × PageResult =>
              match pr with
              | (k, PageResult.text t) =>
                if t = [] then none else some (pdfHeader k ++ '\n' :: clean_text t)
              | (k, PageResult.raised e) => some (pdfErrMarker k e))
            (List.enumFrom 1 pages))) ∧
    read_pdf_pages
        [PageResult.text "Alpha".toList, PageResult.raised "boom".toList,
          PageResult.text "Gamma".toList] =
      ("--- Page 1 ---\nAlpha\n\n--- Page 2 [Error extracting: boom] ---\n\n" ++
        "--- Page 3 ---\nGamma").toList := by
  constructor
  · intro pages
    unfold read_pdf_pages
    rw [pdfBlocks_eq_filterMap pages 1]
  · decide

/- ==================== Claims C2, C7 ==================== -/

theorem searchCap_of_match (f : List Char → Option (List Char)) (l : List Char)
    (cap : List Char) (h : f l = some cap) : searchCap f l = some cap := by
  cases l with
  | nil => simpa [searchCap] using h
  | cons c t => simp [searchCap, h]

theorem searchCap_skip (f : List Char → Option (List Char)) :
    ∀ (k : Nat) (l : List Char), k ≤ l.length → noMatchUpTo f l k = true →
      searchCap f l = searchCap f (l.drop k) := by
  intro k
  induction k with
  | zero => intro l _ _; simp
  | succ k ih =>
    intro l hk hnm
    cases l with
    | nil => simp at hk
    | cons c t =>
      have h1 : (f (c :: t)).isNone = true ∧ noMatchUpTo f t k = true := by
        simpa [noMatchUpTo, Bool.and_eq_true] using hnm
      have hf : f (c :: t) = none := Option.isNone_iff_eq_none.mp h1.1
      have : searchCap f (c :: t) = searchCap f t := by simp [searchCap, hf]
      rw [this, List.drop_succ_cons]
      exact ih t (by simpa using hk) h1.2

/-- The revenue pattern matches at the start of
`"Revenue: $1,000,000" ++ b` with capture group `1,000,000`, for every
continuation `b` that does not extend the number. -/
theorem matchRevenueAt_occ (b : List Char) (hb : numBoundary b = true) :
    matchRevenueAt ("Revenue: $1,000,000".toList ++ b) = some "1,000,000".toList := by
  cases b with
  | nil => decide
  | cons c b' =>
    have hc1 : isDigitComma c = false := by
      have := hb
      simp [numBoundary, Bool.and_eq_true] at this
      simpa using this.1
    have hc2 : ¬(c = '.') := by
      have := hb
      simp [numBoundary, Bool.and_eq_true] at this
      simpa using this.2
    simp +decide [matchRevenueAt, stripLowerCI, matchMoneyTail, List.cons_append,
      hc1, hc2]

/-- The net-income pattern matches at the start of
`"Net Income: $150,000" ++ d` with capture group `150,000`, for every
continuation `d` that does not extend the number. -/
theorem matchNetIncomeAt_occ (d : List Char) (hd : numBoundary d = true) :
    matchNetIncomeAt ("Net Income: $150,000".toList ++ d) = some "150,000".toList := by
  cases d with
  | nil => decide
  | cons c d' =>
    have hc1 : isDigitComma c = false := by
      have := hd
      simp [numBoundary, Bool.and_eq_true] at this
      simpa using this.1
    have hc2 : ¬(c = '.') := by
      have := hd
      simp [numBoundary, Bool.and_eq_true] at this
      simpa using this.2
    simp +decide [matchNetIncomeAt, matchNetAt, stripLowerCI, matchMoneyTail,
      List.cons_append, hc1, hc2]

/-- Claim C2 counterexample: the text
`"Revenue: $1,000,0001 Net Income: $150,000"` contains
`"Revenue: $1,000,000"` (at position 0) and `"Net Income: $150,000"` (at
position 21), and no revenue or net-income pattern matches at any earlier
position (the first matches are at 0 and 21, the occurrences themselves);
yet the extracted revenue is 10000001, not the 1000000 the claim
prescribes, because the digit following the occurrence extends the capture
group. -/
theorem scenario1_counterexample :
    (containsSub "Revenue: $1,000,0001 Net Income: $150,000".toList
        "Revenue: $1,000,000".toList = true ∧
      containsSub "Revenue: $1,000,0001 Net Income: $150,000".toList
        "Net Income: $150,000".toList = true ∧
      "Revenue: $1,000,0001 Net Income: $150,000".toList.take 19 =
        "Revenue: $1,000,000".toList ∧
      "Revenue: $1,000,0001 Net Income: $150,000".toList.drop 21 =
        "Net Income: $150,000".toList ∧
      searchPos matchRevenueAt "Revenue: $1,000,0001 Net Income: $150,000".toList = some 0 ∧
      searchPos matchNetIncomeAt "Revenue: $1,000,0001 Net Income: $150,000".toList =
        some 21) ∧
    extract_financial_metrics "Revenue: $1,000,0001 Net Income: $150,000".toList =
      Except.ok ⟨some 10000001, some 150000⟩ ∧
    (10000001 : ℚ) ≠ 1000000 := by
  refine ⟨by decide, ?_, by norm_num⟩
  have h1 : revenueCap "Revenue: $1,000,0001 Net Income: $150,000".toList =
      some "1,000,0001".toList := by decide
  have h2 : netIncomeCap "Revenue: $1,000,0001 Net Income: $150,000".toList =
      some "150,000".toList := by decide
  unfold extract_financial_metrics
  rw [h1, h2]
  simp +decide [metricValue, parseNum, digitsVal, Bind.bind, Except.bind, Pure.pure,
    Except.pure]

/-- Claim C2 (amended): for any input text containing
`"Revenue: $1,000,000"` and `"Net Income: $150,000"`, each occurrence not
immediately followed by a digit, comma or dot, and with no match of the
revenue or net-income patterns at any earlier position, the pipeline
extracts revenue 1000000 and net income 150000, computes
`profit_margin = 15.0`, investment score 60 (baseline 50 plus the +10
bonus, since 15.0 is not > 15), and recommends the BUY tier. -/
theorem scenario1_amended (t a b c d : List Char)
    (hta : t = a ++ ("Revenue: $1,000,000".toList ++ b))
    (htc : t = c ++ ("Net Income: $150,000".toList ++ d))
    (hb : numBoundary b = true) (hd : numBoundary d = true)
    (hra : noMatchUpTo matchRevenueAt t a.length = true)
    (hnc : noMatchUpTo matchNetIncomeAt t c.length = true) :
    analyze_investment t = Except.ok
      ⟨⟨some 1000000, some 150000⟩, some 15, 60,
        ["BUY: Company shows good financial health"]⟩ := by
  have hla : a.length ≤ t.length := by
    rw [hta]; simp
  have hlc : c.length ≤ t.length := by
    rw [htc]; simp
  have hdrop_a : t.drop a.length = "Revenue: $1,000,000".toList ++ b := by
    rw [hta]; exact List.drop_left _ _
  have hdrop_c : t.drop c.length = "Net Income: $150,000".toList ++ d := by
    rw [htc]; exact List.drop_left _ _
  have hrev : searchCap matchRevenueAt t = some "1,000,000".toList := by
    rw [searchCap_skip matchRevenueAt a.length t hla hra, hdrop_a]
    exact searchCap_of_match _ _ _ (matchRevenueAt_occ b hb)
  have hni : searchCap matchNetIncomeAt t = some "150,000".toList := by
    rw [searchCap_skip matchNetIncomeAt c.length t hlc hnc, hdrop_c]
    exact searchCap_of_match _ _ _ (matchNetIncomeAt_occ d hd)
  have hrc : revenueCap t = some "1,000,000".toList := by
    unfold revenueCap; rw [hrev]
  have hnc2 : netIncomeCap t = some "150,000".toList := by
    unfold netIncomeCap; rw [hni]
  have hex : extract_financial_metrics t = Except.ok ⟨some 1000000, some 150000⟩ := by
    unfold extract_financial_metrics
    rw [hrc, hnc2]
    simp +decide [metricValue, parseNum, digitsVal, Bind.bind, Except.bind, Pure.pure,
      Except.pure]
  have hr : calculate_investment_ratios ⟨some 1000000, some 150000⟩ = some 15 := by
    show (if (1000000 : ℚ) ≠ 0 then
        some (pyRound2 ((150000 : ℚ) / 1000000 * 100)) else none) = some 15
    rw [if_pos (by norm_num)]
    norm_num [pyRound2, rndHalfEven]
  have hs : calculate_investment_score ⟨some 1000000, some 150000⟩ (some 15) = 60 := by
    norm_num [calculate_investment_score]
  have hrec : generate_recommendations ⟨some 1000000, some 150000⟩ (some 15) 60 =
      ["BUY: Company shows good financial health"] := by
    norm_num [generate_recommendations]
  unfold analyze_investment
  rw [hex]
  simp [Bind.bind, Except.bind, Pure.pure, Except.pure, hr, hs, hrec]

theorem scenario1_amended_witness :
    analyze_investment "Revenue: $1,000,000 Net Income: $150,000".toList =
      Except.ok ⟨⟨some 1000000, some 150000⟩, some 15, 60,
        ["BUY: Company shows good financial health"]⟩ :=
  scenario1_amended "Revenue: $1,000,000 Net Income: $150,000".toList
    [] " Net Income: $150,000".toList "Revenue: $1,000,000 ".toList []
    (by decide) (by decide) (by decide) (by decide) (by decide) (by decide)

/-- Claim C7: for each metric the ordered pattern list is tried with
`re.search` over the whole text and the first matching pattern wins (a
`revenue`-pattern match anywhere takes priority over the `sales` synonym,
which is only consulted when the `revenue` pattern matches nowhere; likewise
`net income` before `net profit`); the stored value is the first capture
group parsed as a decimal number after removing comma thousands-separators
(`parseNum`), with no unit multiplier applied even when a unit word is
captured, so `"revenue: 5 million"` yields revenue 5; and if no pattern
matches, the metric key is absent. -/
theorem metric_extraction_behaviour :
    (∀ t cap, searchCap matchRevenueAt t = some cap → revenueCap t = some cap) ∧
    (∀ t, searchCap matchRevenueAt t = none → revenueCap t = searchCap matchSalesAt t) ∧
    (∀ t cap v m, revenueCap t = some cap → parseNum cap = some v →
      extract_financial_metrics t = Except.ok m → m.revenue = some v) ∧
    (∀ t m, revenueCap t = none → extract_financial_metrics t = Except.ok m →
      m.revenue = none) ∧
    (∀ t cap, searchCap matchNetIncomeAt t = some cap → netIncomeCap t = some cap) ∧
    (∀ t, searchCap matchNetIncomeAt t = none →
      netIncomeCap t = searchCap matchNetProfitAt t) ∧
    (∀ t cap v m, netIncomeCap t = some cap → parseNum cap = some v →
      extract_financial_metrics t = Except.ok m → m.net_income = some v) ∧
    (∀ t m, netIncomeCap t = none → extract_financial_metrics t = Except.ok m →
      m.net_income = none) ∧
    extract_financial_metrics "revenue: 5 million".toList = Except.ok ⟨some 5, none⟩ := by
  refine ⟨?_, ?_, ?_, ?_, ?_, ?_, ?_, ?_, ?_⟩
  · intro t cap h
    unfold revenueCap
    rw [h]
  · intro t h
    unfold revenueCap
    rw [h]
  · intro t cap v m hrc hp hok
    unfold extract_financial_metrics at hok
    rw [hrc] at hok
    rcases hni : metricValue (netIncomeCap t) with u | w <;> rw [hni] at hok <;>
      simp only [metricValue, hp, Bind.bind, Except.bind, Pure.pure, Except.pure] at hok
    · exact absurd hok (by simp)
    · injection hok with h
      rw [← h]
  · intro t m hrc hok
    unfold extract_financial_metrics at hok
    rw [hrc] at hok
    rcases hni : metricValue (netIncomeCap t) with u | w <;> rw [hni] at hok <;>
      simp only [metricValue, Bind.bind, Except.bind, Pure.pure, Except.pure] at hok
    · exact absurd hok (by simp)
    · injection hok with h
      rw [← h]
  · intro t cap h
    unfold netIncomeCap
    rw [h]
  · intro t h
    unfold netIncomeCap
    rw [h]
  · intro t cap v m hnc hp hok
    unfold extract_financial_metrics at hok
    rw [hnc] at hok
    rcases hrv : metricValue (revenueCap t) with u | w <;> rw [hrv] at hok <;>
      simp only [metricValue, hp, Bind.bind, Except.bind, Pure.pure, Except.pure] at hok
    · exact absurd hok (by simp)
    · injection hok with h
      rw [← h]
  · intro t m hnc hok
    unfold extract_financial_metrics at hok
    rw [hnc] at hok
    rcases hrv : metricValue (revenueCap t) with u | w <;> rw [hrv] at hok <;>
      simp only [metricValue, Bind.bind, Except.bind, Pure.pure, Except.pure] at hok
    · exact absurd hok (by simp)
    · injection hok with h
      rw [← h]
  · have h1 : revenueCap "revenue: 5 million".toList = some "5".toList := by decide
    have h2 : netIncomeCap "revenue: 5 million".toList = none := by decide
    unfold extract_financial_metrics
    rw [h1, h2]
    simp +decide [metricValue, parseNum, digitsVal, Bind.bind, Except.bind, Pure.pure,
      Except.pure]

theorem metric_extraction_behaviour_witness :
    revenueCap "sales: 7 revenue: 5".toList = some "5".toList :=
  metric_extraction_behaviour.1 "sales: 7 revenue: 5".toList "5".toList (by decide)

/- ==================== Claim C1 ==================== -/

/-- Claim C1 counterexample: the normalizer is not idempotent.  On
`"a é b"` the non-ASCII run is replaced by a space only after space runs
have been collapsed, leaving a three-space run that a second application
collapses further. -/
theorem clean_text_not_idempotent :
    clean_text "a é b".toList = "a   b".toList ∧
    clean_text (clean_text "a é b".toList) = "a b".toList ∧
    clean_text (clean_text "a é b".toList) ≠ clean_text "a é b".toList := by
  exact ⟨by decide, by decide, by decide⟩

/- Generic facts about `lastIdxBy`, `takeWhile`, `dropWhile`. -/

theorem lastIdxBy_none_iff (q : Char → Bool) (l : List Char) :
    lastIdxBy q l = none ↔ ∀ c ∈ l, q c = false := by
  induction l with
  | nil => simp [lastIdxBy]
  | cons c rest ih =>
    show (match lastIdxBy q rest with
      | some j => some (j + 1)
      | none => if q c then some 0 else none) = none ↔ _
    cases hr : lastIdxBy q rest with
    | some j =>
      simp only []
      constructor
      · intro h; exact absurd h (by simp)
      · intro h
        have : lastIdxBy q rest = none := (ih.mpr fun d hd => h d (List.mem_cons_of_mem c hd))
        rw [hr] at this
        exact absurd this (by simp)
    | none =>
      by_cases hq : q c = true
      · simp [hq]
      · have hq' : q c = false := by simpa using hq
        simp only [hq', ih.mp hr, if_neg (by simp [hq'] : ¬q c = true)]
        constructor
        · intro _
          intro a ha
          rcases List.mem_cons.mp ha with h | h
          · rw [h]; exact hq'
          · exact ih.mp hr a h
        · intro _; rfl

theorem lastIdxBy_some_decomp (q : Char → Bool) :
    ∀ (l : List Char) (j : Nat), lastIdxBy q l = some j →
      ∃ u e b, l = u ++ e :: b ∧ u.length = j ∧ q e = true ∧ ∀ c ∈ b, q c = false := by
  intro l
  induction l with
  | nil => intro j h; exact absurd h (by simp [lastIdxBy])
  | cons c rest ih =>
    intro j h
    rw [show lastIdxBy q (c :: rest) =
        (match lastIdxBy q rest with
         | some j => some (j + 1)
         | none => if q c then some 0 else none) from rfl] at h
    cases hr : lastIdxBy q rest with
    | some j' =>
      rw [hr] at h
      simp only [Option.some.injEq] at h
      obtain ⟨u, e, b, hl, hu, he, hb⟩ := ih j' hr
      exact ⟨c :: u, e, b, by rw [hl, List.cons_append], by simp [hu, ← h], he, hb⟩
    | none =>
      rw [hr] at h
      by_cases hq : q c = true
      · rw [if_pos hq] at h
        simp only [Option.some.injEq] at h
        exact ⟨[], c, rest, rfl, by simp [← h], hq, (lastIdxBy_none_iff q rest).mp hr⟩
      · rw [if_neg hq] at h
        exact absurd h (by simp)

theorem lastIdxBy_append_last (q : Char → Bool) (e : Char) (b : List Char)
    (he : q e = true) (hb : ∀ c ∈ b, q c = false) :
    ∀ u : List Char, lastIdxBy q (u ++ e :: b) = some u.length := by
  intro u
  induction u with
  | nil =>
    show (match lastIdxBy q b with
      | some j => some (j + 1)
      | none => if q e then some 0 else none) = some 0
    rw [(lastIdxBy_none_iff q b).mpr hb, if_pos he]
  | cons c u' ih =>
    show (match lastIdxBy q (u' ++ e :: b) with
      | some j => some (j + 1)
      | none => if q c then some 0 else none) = some (u'.length + 1)
    rw [ih]

theorem takeWhile_append_all (p : Char → Bool) (w l : List Char)
    (hw : ∀ c ∈ w, p c = true) : (w ++ l).takeWhile p = w ++ l.takeWhile p := by
  induction w with
  | nil => rfl
  | cons c w' ih =>
    have hc : p c = true := hw c (List.mem_cons_self c w')
    simp only [List.cons_append, List.takeWhile_cons, hc, if_true]
    rw [ih fun d hd => hw d (List.mem_cons_of_mem c hd)]

theorem dropWhile_append_all (p : Char → Bool) (w l : List Char)
    (hw : ∀ c ∈ w, p c = true) : (w ++ l).dropWhile p = l.dropWhile p := by
  induction w with
  | nil => rfl
  | cons c w' ih =>
    have hc : p c = true := hw c (List.mem_cons_self c w')
    simp only [List.cons_append, List.dropWhile_cons, hc, if_true]
    exact ih fun d hd => hw d (List.mem_cons_of_mem c hd)

theorem dropWhile_head_false (p : Char → Bool) :
    ∀ (l : List Char) (d : Char) (t : List Char), l.dropWhile p = d :: t → p d = false := by
  intro l
  induction l with
  | nil => intro d t h; exact absurd h (by simp)
  | cons c rest ih =>
    intro d t h
    rw [List.dropWhile_cons] at h
    by_cases hc : p c = true
    · rw [if_pos hc] at h
      exact ih d t h
    · rw [if_neg hc] at h
      cases h
      simpa using hc

theorem dropWhile_eq_self_of_head (p : Char → Bool) (l : List Char)
    (h : ∀ d t, l = d :: t → p d = false) : l.dropWhile p = l := by
  cases l with
  | nil => rfl
  | cons c rest => rw [List.dropWhile_cons, if_neg (by simp [h c rest rfl])]

theorem takeWhile_take_comm (p : Char → Bool) :
    ∀ (l : List Char) (n : Nat), (l.take n).takeWhile p = (l.takeWhile p).take n := by
  intro l
  induction l with
  | nil => intro n; simp
  | cons c rest ih =>
    intro n
    cases n with
    | zero => simp
    | succ m =>
      rw [List.take_succ_cons, List.takeWhile_cons, List.takeWhile_cons]
      by_cases hc : p c = true
      · rw [if_pos hc, if_pos hc, List.take_succ_cons, ih]
      · rw [if_neg hc, if_neg hc]
        rfl

/- `subBlank` fixed points. -/

theorem subBlank_cons_nonl (c : Char) (rest : List Char) (hc : ¬c = '\n') :
    subBlank (c :: rest) = c :: subBlank rest := by
  rw [subBlank_cons, if_neg hc]

theorem subBlank_append_nonl (w l : List Char) (hw : ∀ c ∈ w, ¬c = '\n') :
    subBlank (w ++ l) = w ++ subBlank l := by
  induction w with
  | nil => rfl
  | cons c w' ih =>
    rw [List.cons_append, subBlank_cons_nonl c _ (hw c (List.mem_cons_self c w')),
      ih fun d hd => hw d (List.mem_cons_of_mem c hd), List.cons_append]

theorem blankOk_nonl_cons (c : Char) (rest : List Char) (hc : ¬c = '\n') :
    blankOk (c :: rest) = blankOk rest := by
  show ((if c = '\n' then nlGapOk rest else true) && blankOk rest) = blankOk rest
  rw [if_neg hc, Bool.true_and]

theorem blankOk_nl_cons (rest : List Char) :
    blankOk ('\n' :: rest) = (nlGapOk rest && blankOk rest) := by
  show ((if ('\n' : Char) = '\n' then nlGapOk rest else true) && blankOk rest) = _
  rw [if_pos rfl]

theorem blankOk_tail (c : Char) (rest : List Char) (h : blankOk (c :: rest) = true) :
    blankOk rest = true := by
  have h2 : ((if c = '\n' then nlGapOk rest else true) && blankOk rest) = true := h
  simp only [Bool.and_eq_true] at h2
  exact h2.2

theorem blankOk_of_append (u v : List Char) (h : blankOk (u ++ v) = true) :
    blankOk v = true := by
  induction u with
  | nil => exact h
  | cons c u' ih => exact ih (blankOk_tail c _ h)

theorem blankOk_append_nonl (w l : List Char) (hw : ∀ c ∈ w, ¬c = '\n') :
    blankOk (w ++ l) = blankOk l := by
  induction w with
  | nil => rfl
  | cons c w' ih =>
    rw [List.cons_append, blankOk_nonl_cons c _ (hw c (List.mem_cons_self c w')),
      ih fun d hd => hw d (List.mem_cons_of_mem c hd)]

theorem bool_and_split {a b : Bool} (h : (a && b) = true) : a = true ∧ b = true := by
  simp only [Bool.and_eq_true] at h
  exact h

/-- The blank-line pass is the identity on `blankOk` lists. -/
theorem subBlank_id_aux :
    ∀ (n : Nat) (l : List Char), l.length ≤ n → blankOk l = true → subBlank l = l := by
  intro n
  induction n with
  | zero =>
    intro l hl _
    rw [List.length_eq_zero.mp (Nat.le_zero.mp hl), subBlank_nil]
  | succ n ih =>
    intro l hl hb
    cases l with
    | nil => rfl
    | cons c rest =>
      simp only [List.length_cons] at hl
      by_cases hc : c = '\n'
      · subst hc
        have hgap : nlGapOk rest = true :=
          (bool_and_split ((blankOk_nl_cons rest) ▸ hb)).1
        have hbr : blankOk rest = true := blankOk_tail _ _ hb
        rw [subBlank_cons, if_pos rfl]
        rcases h : lastNlIdx (rest.takeWhile isPySpace) with _ | j
        · simp only [h]
          rw [ih rest (by omega) hbr]
        · have hj : j = 0 := by
            unfold nlGapOk at hgap
            rw [h] at hgap
            cases j with
            | zero => rfl
            | succ j' => simp at hgap
          subst hj
          simp only [h]
          obtain ⟨u, e, b, hww, hu, he, hbq⟩ := lastIdxBy_some_decomp _ _ _ h
          have hu0 : u = [] := List.length_eq_zero.mp hu
          subst hu0
          have he' : e = '\n' := by simpa using he
          subst he'
          rw [List.nil_append] at hww
          obtain ⟨rest2, rfl⟩ : ∃ rest2, rest = '\n' :: rest2 := by
            cases rest with
            | nil => simp at hww
            | cons r0 rr =>
              rw [List.takeWhile_cons] at hww
              by_cases hr0 : isPySpace r0 = true
              · rw [if_pos hr0] at hww
                injection hww with h1 _
                exact ⟨rr, by rw [h1]⟩
              · rw [if_neg hr0] at hww
                simp at hww
          simp only [List.length_cons] at hl
          rw [show (0 : Nat) + 1 = 1 from rfl, List.drop_succ_cons, List.drop_zero]
          rw [ih rest2 (by omega) (blankOk_tail _ _ hbr)]
      · rw [subBlank_cons_nonl c rest hc,
          ih rest (by omega) (blankOk_tail _ _ hb)]

theorem subBlank_id_of_blankOk (l : List Char) (h : blankOk l = true) :
    subBlank l = l :=
  subBlank_id_aux l.length l (Nat.le_refl _) h

theorem takeWhile_ws_subBlank_dropWhile (rest : List Char) :
    (subBlank (rest.dropWhile isPySpace)).takeWhile isPySpace = [] := by
  cases h : rest.dropWhile isPySpace with
  | nil => rw [subBlank_nil]; rfl
  | cons d R =>
    have hd : isPySpace d = false := dropWhile_head_false isPySpace rest d R h
    have hdnl : ¬d = '\n' := by
      intro he
      rw [he] at hd
      exact absurd hd (by decide)
    rw [subBlank_cons_nonl d R hdnl, List.takeWhile_cons, if_neg (by simp [hd])]

/-- The output of the blank-line pass is `blankOk`. -/
theorem blankOk_subBlank_aux :
    ∀ (n : Nat) (l : List Char), l.length ≤ n → blankOk (subBlank l) = true := by
  intro n
  induction n with
  | zero =>
    intro l hl
    rw [List.length_eq_zero.mp (Nat.le_zero.mp hl), subBlank_nil]
    rfl
  | succ n ih =>
    intro l hl
    cases l with
    | nil => rw [subBlank_nil]; rfl
    | cons c rest =>
      simp only [List.length_cons] at hl
      by_cases hc : c = '\n'
      · subst hc
        rw [subBlank_cons, if_pos rfl]
        rcases h : lastNlIdx (rest.takeWhile isPySpace) with _ | j
        · simp only [h]
          rw [blankOk_nl_cons, Bool.and_eq_true]
          constructor
          · have hWmem : ∀ d ∈ rest.takeWhile isPySpace, isPySpace d = true :=
              fun d hd => List.mem_takeWhile_imp hd
            have hWnl : ∀ d ∈ rest.takeWhile isPySpace, ¬d = '\n' := by
              intro d hd he
              have h2 := (lastIdxBy_none_iff _ _).mp h d hd
              rw [he] at h2
              simp at h2
            have key : (subBlank rest).takeWhile isPySpace = rest.takeWhile isPySpace := by
              conv_lhs =>
                rw [show rest = rest.takeWhile isPySpace ++ rest.dropWhile isPySpace from
                  (List.takeWhile_append_dropWhile isPySpace rest).symm]
              rw [subBlank_append_nonl _ _ hWnl, takeWhile_append_all _ _ _ hWmem,
                takeWhile_ws_subBlank_dropWhile, List.append_nil]
            unfold nlGapOk
            rw [key, h]
          · exact ih rest (by omega)
        · simp only [h]
          obtain ⟨u, e, b, hww, hu, he, hbq⟩ := lastIdxBy_some_decomp _ _ _ h
          have he' : e = '\n' := by simpa using he
          subst he'
          have hbnl : ∀ d ∈ b, ¬d = '\n' := by
            intro d hd he2
            have h2 := hbq d hd
            rw [he2] at h2
            simp at h2
          have hWmem : ∀ d ∈ rest.takeWhile isPySpace, isPySpace d = true :=
            fun d hd => List.mem_takeWhile_imp hd
          have hbws : ∀ d ∈ b, isPySpace d = true := by
            intro d hd
            exact hWmem d (by
              rw [hww]
              exact List.mem_append_right _ (List.mem_cons_of_mem _ hd))
          have hdrop : rest.drop (j + 1) = b ++ rest.dropWhile isPySpace := by
            conv_lhs =>
              rw [show rest = rest.takeWhile isPySpace ++ rest.dropWhile isPySpace from
                (List.takeWhile_append_dropWhile isPySpace rest).symm, hww]
            rw [show (u ++ '\n' :: b) ++ rest.dropWhile isPySpace =
                (u ++ ['\n']) ++ (b ++ rest.dropWhile isPySpace) by simp]
            rw [show j + 1 = (u ++ ['\n']).length by simp [hu]]
            exact List.drop_left _ _
          rw [hdrop, subBlank_append_nonl _ _ hbnl]
          have htwT : (b ++ subBlank (rest.dropWhile isPySpace)).takeWhile isPySpace = b := by
            rw [takeWhile_append_all _ _ _ hbws, takeWhile_ws_subBlank_dropWhile,
              List.append_nil]
          rw [blankOk_nl_cons, blankOk_nl_cons, Bool.and_eq_true, Bool.and_eq_true]
          refine ⟨?_, ?_, ?_⟩
          · unfold nlGapOk
            rw [List.takeWhile_cons, if_pos (by decide), htwT]
            rw [show lastNlIdx ('\n' :: b) = some 0 from
              lastIdxBy_append_last _ '\n' b (by simp) hbq []]
          · unfold nlGapOk
            rw [htwT, show lastNlIdx b = none from (lastIdxBy_none_iff _ _).mpr hbq]
          · rw [blankOk_append_nonl _ _ hbnl]
            exact ih (rest.dropWhile isPySpace)
              (Nat.le_trans (dropWhile_len_le _ _) (by omega))
      · rw [subBlank_cons_nonl c rest hc, blankOk_nonl_cons c _ hc]
        exact ih rest (by omega)

theorem blankOk_subBlank (l : List Char) : blankOk (subBlank l) = true :=
  blankOk_subBlank_aux l.length l (Nat.le_refl _)

/- `subSpaces` fixed points. -/

theorem subSpaces_sp_cons (rest : List Char) :
    subSpaces (' ' :: rest) = ' ' :: subSpaces (rest.dropWhile (fun d => d = ' ')) := by
  rw [subSpaces_cons, if_pos rfl]

theorem subSpaces_nonsp_cons (c : Char) (rest : List Char) (hc : ¬c = ' ') :
    subSpaces (c :: rest) = c :: subSpaces rest := by
  rw [subSpaces_cons, if_neg hc]

theorem mem_subSpaces_aux :
    ∀ (n : Nat) (l : List Char), l.length ≤ n → ∀ c ∈ subSpaces l, c ∈ l ∨ c = ' ' := by
  intro n
  induction n with
  | zero =>
    intro l hl c hc
    rw [List.length_eq_zero.mp (Nat.le_zero.mp hl), subSpaces_nil] at hc
    exact absurd hc (by simp)
  | succ n ih =>
    intro l hl c hc
    cases l with
    | nil => rw [subSpaces_nil] at hc; exact absurd hc (by simp)
    | cons a rest =>
      simp only [List.length_cons] at hl
      by_cases ha : a = ' '
      · subst ha
        rw [subSpaces_sp_cons] at hc
        rcases List.mem_cons.mp hc with h1 | h1
        · exact Or.inr h1
        · have hlen : (rest.dropWhile (fun d => d = ' ')).length ≤ n :=
            Nat.le_trans (dropWhile_len_le _ _) (by omega)
          rcases ih _ hlen c h1 with h2 | h2
          · exact Or.inl (List.mem_cons_of_mem _
              ((List.dropWhile_sublist _).subset h2))
          · exact Or.inr h2
      · rw [subSpaces_nonsp_cons _ _ ha] at hc
        rcases List.mem_cons.mp hc with h1 | h1
        · exact Or.inl (by rw [h1]; exact List.mem_cons_self a rest)
        · rcases ih rest (by omega) c h1 with h2 | h2
          · exact Or.inl (List.mem_cons_of_mem _ h2)
          · exact Or.inr h2

theorem mem_subSpaces (l : List Char) (c : Char) (h : c ∈ subSpaces l) :
    c ∈ l ∨ c = ' ' :=
  mem_subSpaces_aux l.length l (Nat.le_refl _) c h

theorem dropSp_takeWs_comm (l : List Char) :
    (l.takeWhile isPySpace).dropWhile (fun d => d = ' ') =
      (l.dropWhile (fun d => d = ' ')).takeWhile isPySpace := by
  induction l with
  | nil => rfl
  | cons c rest ih =>
    by_cases hc : c = ' '
    · subst hc
      rw [List.takeWhile_cons, if_pos (by decide), List.dropWhile_cons,
        if_pos (by decide), List.dropWhile_cons, if_pos (by decide)]
      exact ih
    · have hc' : (decide (c = ' ')) = false := by simp [hc]
      by_cases hw : isPySpace c = true
      · rw [List.takeWhile_cons, if_pos hw, List.dropWhile_cons, if_neg (by simp [hc]),
          List.dropWhile_cons, if_neg (by simp [hc]), List.takeWhile_cons, if_pos hw]
      · rw [List.takeWhile_cons, if_neg hw, List.dropWhile_cons, if_neg (by simp [hc]),
          List.takeWhile_cons, if_neg hw]
        rfl

theorem subSpaces_takeWhile_ws_aux :
    ∀ (n : Nat) (l : List Char), l.length ≤ n →
      (subSpaces l).takeWhile isPySpace = subSpaces (l.takeWhile isPySpace) := by
  intro n
  induction n with
  | zero =>
    intro l hl
    rw [List.length_eq_zero.mp (Nat.le_zero.mp hl)]
    rfl
  | succ n ih =>
    intro l hl
    cases l with
    | nil => rfl
    | cons c rest =>
      simp only [List.length_cons] at hl
      by_cases hc : c = ' '
      · subst hc
        rw [subSpaces_sp_cons, List.takeWhile_cons, if_pos (by decide),
          List.takeWhile_cons, if_pos (by decide), subSpaces_sp_cons,
          ih _ (Nat.le_trans (dropWhile_len_le _ _) (by omega)), dropSp_takeWs_comm]
      · by_cases hw : isPySpace c = true
        · rw [subSpaces_nonsp_cons _ _ hc, List.takeWhile_cons, if_pos hw,
            List.takeWhile_cons, if_pos hw, subSpaces_nonsp_cons _ _ hc,
            ih rest (by omega)]
        · rw [subSpaces_nonsp_cons _ _ hc, List.takeWhile_cons, if_neg hw,
            List.takeWhile_cons, if_neg hw]
          rfl

theorem subSpaces_takeWhile_ws (l : List Char) :
    (subSpaces l).takeWhile isPySpace = subSpaces (l.takeWhile isPySpace) :=
  subSpaces_takeWhile_ws_aux l.length l (Nat.le_refl _)

theorem nonl_subSpaces (l : List Char) (hl : ∀ c ∈ l, ¬c = '\n') :
    ∀ c ∈ subSpaces l, ¬c = '\n' := by
  intro c hc
  rcases mem_subSpaces l c hc with h | h
  · exact hl c h
  · rw [h]; decide

/-- The space-collapsing pass preserves `blankOk`. -/
theorem blankOk_subSpaces_aux :
    ∀ (n : Nat) (l : List Char), l.length ≤ n → blankOk l = true →
      blankOk (subSpaces l) = true := by
  intro n
  induction n with
  | zero =>
    intro l hl _
    rw [List.length_eq_zero.mp (Nat.le_zero.mp hl), subSpaces_nil]
    rfl
  | succ n ih =>
    intro l hl hb
    cases l with
    | nil => rw [subSpaces_nil]; rfl
    | cons c rest =>
      simp only [List.length_cons] at hl
      by_cases hc : c = ' '
      · subst hc
        rw [subSpaces_sp_cons, blankOk_nonl_cons _ _ (by decide)]
        have hsuf : rest.dropWhile (fun d => d = ' ') <:+ rest := List.dropWhile_suffix _
        obtain ⟨u, hu⟩ := hsuf
        have hbd : blankOk (rest.dropWhile (fun d => d = ' ')) = true := by
          apply blankOk_of_append u
          rw [hu]
          exact blankOk_tail _ _ hb
        exact ih _ (Nat.le_trans (dropWhile_len_le _ _) (by omega)) hbd
      · by_cases hn : c = '\n'
        · subst hn
          rw [subSpaces_nonsp_cons _ _ hc, blankOk_nl_cons, Bool.and_eq_true]
          have hgap : nlGapOk rest = true :=
            (bool_and_split ((blankOk_nl_cons rest) ▸ hb)).1
          constructor
          · unfold nlGapOk
            rw [subSpaces_takeWhile_ws]
            unfold nlGapOk at hgap
            rcases hT : lastNlIdx (rest.takeWhile isPySpace) with _ | j
            · have hTnl := (lastIdxBy_none_iff _ _).mp hT
              have : ∀ d ∈ rest.takeWhile isPySpace, ¬d = '\n' := by
                intro d hd he
                have h2 := hTnl d hd
                rw [he] at h2
                simp at h2
              rw [show lastNlIdx (subSpaces (rest.takeWhile isPySpace)) = none from
                (lastIdxBy_none_iff _ _).mpr (by
                  intro d hd
                  simpa using nonl_subSpaces _ this d hd)]
            · have hj : j = 0 := by
                rw [hT] at hgap
                cases j with
                | zero => rfl
                | succ j' => simp at hgap
              subst hj
              obtain ⟨u, e, b, hww, hu, he, hbq⟩ := lastIdxBy_some_decomp _ _ _ hT
              have hu0 : u = [] := List.length_eq_zero.mp hu
              subst hu0
              have he' : e = '\n' := by simpa using he
              subst he'
              rw [List.nil_append] at hww
              rw [hww, subSpaces_nonsp_cons _ _ (by decide)]
              have hbnl : ∀ d ∈ b, ¬d = '\n' := by
                intro d hd he2
                have h2 := hbq d hd
                rw [he2] at h2
                simp at h2
              rw [show lastNlIdx ('\n' :: subSpaces b) = some 0 from
                lastIdxBy_append_last _ '\n' (subSpaces b) (by simp) (by
                  intro d hd
                  simpa using nonl_subSpaces _ hbnl d hd) []]
          · exact ih rest (by omega) (blankOk_tail _ _ hb)
        · rw [subSpaces_nonsp_cons _ _ hc, blankOk_nonl_cons _ _ hn]
          exact ih rest (by omega) (blankOk_tail _ _ hb)

theorem blankOk_subSpaces (l : List Char) (h : blankOk l = true) :
    blankOk (subSpaces l) = true :=
  blankOk_subSpaces_aux l.length l (Nat.le_refl _) h

/- `noTwoSp`: fixed points of the space-collapsing pass. -/

theorem noTwoSp_cons_eq (c : Char) (rest : List Char) :
    noTwoSp (c :: rest) =
      ((match rest.head? with
        | some d => !(c = ' ' && d = ' ')
        | none => true) && noTwoSp rest) := rfl

theorem noTwoSp_tail (c : Char) (rest : List Char) (h : noTwoSp (c :: rest) = true) :
    noTwoSp rest = true :=
  (bool_and_split ((noTwoSp_cons_eq c rest) ▸ h)).2

theorem noTwoSp_of_append (u v : List Char) (h : noTwoSp (u ++ v) = true) :
    noTwoSp v = true := by
  induction u with
  | nil => exact h
  | cons c u' ih => exact ih (noTwoSp_tail c _ h)

theorem subSpaces_head (c : Char) (rest : List Char) :
    (subSpaces (c :: rest)).head? = some c := by
  by_cases hc : c = ' '
  · subst hc
    rw [subSpaces_sp_cons]
    rfl
  · rw [subSpaces_nonsp_cons _ _ hc]
    rfl

theorem noTwoSp_subSpaces_aux :
    ∀ (n : Nat) (l : List Char), l.length ≤ n → noTwoSp (subSpaces l) = true := by
  intro n
  induction n with
  | zero =>
    intro l hl
    rw [List.length_eq_zero.mp (Nat.le_zero.mp hl), subSpaces_nil]
    rfl
  | succ n ih =>
    intro l hl
    cases l with
    | nil => rw [subSpaces_nil]; rfl
    | cons c rest =>
      simp only [List.length_cons] at hl
      by_cases hc : c = ' '
      · subst hc
        rw [subSpaces_sp_cons, noTwoSp_cons_eq, Bool.and_eq_true]
        constructor
        · cases hdW : rest.dropWhile (fun d => d = ' ') with
          | nil => rw [subSpaces_nil]; rfl
          | cons d R =>
            have hd : ¬d = ' ' := by
              have := dropWhile_head_false _ rest d R hdW
              simpa using this
            rw [subSpaces_head]
            simp [hd]
        · exact ih _ (Nat.le_trans (dropWhile_len_le _ _) (by omega))
      · rw [subSpaces_nonsp_cons _ _ hc, noTwoSp_cons_eq, Bool.and_eq_true]
        constructor
        · cases h2 : (subSpaces rest).head? with
          | none => rfl
          | some d => simp [hc]
        · exact ih rest (by omega)

theorem noTwoSp_subSpaces (l : List Char) : noTwoSp (subSpaces l) = true :=
  noTwoSp_subSpaces_aux l.length l (Nat.le_refl _)

/-- The space-collapsing pass is the identity on `noTwoSp` lists. -/
theorem subSpaces_id_aux :
    ∀ (n : Nat) (l : List Char), l.length ≤ n → noTwoSp l = true → subSpaces l = l := by
  intro n
  induction n with
  | zero =>
    intro l hl _
    rw [List.length_eq_zero.mp (Nat.le_zero.mp hl), subSpaces_nil]
  | succ n ih =>
    intro l hl hs
    cases l with
    | nil => rw [subSpaces_nil]
    | cons c rest =>
      simp only [List.length_cons] at hl
      by_cases hc : c = ' '
      · subst hc
        rw [subSpaces_sp_cons]
        cases rest with
        | nil => rw [List.dropWhile_nil, subSpaces_nil]
        | cons d R =>
          have hpair : (match (d :: R).head? with
              | some d => !((' ' : Char) = ' ' && d = ' ')
              | none => true) = true :=
            (bool_and_split ((noTwoSp_cons_eq ' ' (d :: R)) ▸ hs)).1
          have hd : ¬d = ' ' := by
            simp only [List.head?_cons] at hpair
            simpa using hpair
          rw [List.dropWhile_cons, if_neg (by simp [hd]),
            ih (d :: R) (by omega) (noTwoSp_tail _ _ hs)]
      · rw [subSpaces_nonsp_cons _ _ hc,
          ih rest (by omega) (noTwoSp_tail _ _ hs)]

theorem subSpaces_id_of_noTwoSp (l : List Char) (h : noTwoSp l = true) :
    subSpaces l = l :=
  subSpaces_id_aux l.length l (Nat.le_refl _) h

/- Closure of `blankOk` and `noTwoSp` under `take` and under the strip. -/

theorem noTwoSp_take (l : List Char) :
    ∀ n, noTwoSp l = true → noTwoSp (l.take n) = true := by
  induction l with
  | nil => intro n _; simp [noTwoSp]
  | cons c rest ih =>
    intro n h
    cases n with
    | zero => rfl
    | succ m =>
      rw [List.take_succ_cons, noTwoSp_cons_eq, Bool.and_eq_true]
      refine ⟨?_, ih m (noTwoSp_tail _ _ h)⟩
      cases rest with
      | nil => simp
      | cons d R =>
        cases m with
        | zero => simp
        | succ m' =>
          rw [List.take_succ_cons, List.head?_cons]
          exact (bool_and_split ((noTwoSp_cons_eq c (d :: R)) ▸ h)).1

theorem lastNlIdx_take_gap (T : List Char) (n : Nat)
    (h : lastNlIdx T = none ∨ lastNlIdx T = some 0) :
    lastNlIdx (T.take n) = none ∨ lastNlIdx (T.take n) = some 0 := by
  rcases h with h | h
  · left
    apply (lastIdxBy_none_iff _ _).mpr
    intro c hc
    exact (lastIdxBy_none_iff _ _).mp h c ((List.take_sublist n T).subset hc)
  · obtain ⟨u, e, b, hww, hu, he, hbq⟩ := lastIdxBy_some_decomp _ _ _ h
    have hu0 : u = [] := List.length_eq_zero.mp hu
    subst hu0
    have he' : e = '\n' := by simpa using he
    subst he'
    rw [List.nil_append] at hww
    subst hww
    cases n with
    | zero => left; rfl
    | succ m =>
      right
      rw [List.take_succ_cons]
      exact lastIdxBy_append_last _ '\n' (b.take m) (by simp)
        (fun c hc => hbq c ((List.take_sublist m b).subset hc)) []

theorem nlGapOk_iff (rest : List Char) :
    nlGapOk rest = true ↔
      (lastNlIdx (rest.takeWhile isPySpace) = none ∨
        lastNlIdx (rest.takeWhile isPySpace) = some 0) := by
  unfold nlGapOk
  rcases h : lastNlIdx (rest.takeWhile isPySpace) with _ | j
  · simp
  · cases j with
    | zero => simp
    | succ j' => simp

theorem blankOk_take (l : List Char) :
    ∀ n, blankOk l = true → blankOk (l.take n) = true := by
  induction l with
  | nil => intro n _; simp [blankOk]
  | cons c rest ih =>
    intro n h
    cases n with
    | zero => rfl
    | succ m =>
      rw [List.take_succ_cons]
      by_cases hc : c = '\n'
      · subst hc
        rw [blankOk_nl_cons, Bool.and_eq_true]
        refine ⟨?_, ih m (blankOk_tail _ _ h)⟩
        have hgap : nlGapOk rest = true :=
          (bool_and_split ((blankOk_nl_cons rest) ▸ h)).1
        apply (nlGapOk_iff _).mpr
        rw [takeWhile_take_comm]
        exact lastNlIdx_take_gap _ m ((nlGapOk_iff _).mp hgap)
      · rw [blankOk_nonl_cons _ _ hc]
        exact ih m (blankOk_tail _ _ h)

theorem dropTrail_eq_take (l : List Char) : ∃ n, dropTrail l = l.take n := by
  have hsuf : l.reverse.dropWhile isPySpace <:+ l.reverse := List.dropWhile_suffix _
  obtain ⟨u, hu⟩ := hsuf
  have hl : (l.reverse.dropWhile isPySpace).reverse ++ u.reverse = l := by
    rw [← List.reverse_append, hu, List.reverse_reverse]
  obtain ⟨D, hD⟩ : ∃ D, (l.reverse.dropWhile isPySpace).reverse = D := ⟨_, rfl⟩
  refine ⟨D.length, ?_⟩
  show (l.reverse.dropWhile isPySpace).reverse = l.take D.length
  rw [hD] at hl ⊢
  rw [← hl, List.take_left]

theorem mem_stripChars (c : Char) (l : List Char) (h : c ∈ stripChars l) : c ∈ l := by
  obtain ⟨n, hn⟩ := dropTrail_eq_take (l.dropWhile isPySpace)
  unfold stripChars at h
  rw [hn] at h
  exact (List.dropWhile_sublist _).subset ((List.take_sublist _ _).subset h)

theorem blankOk_stripChars (l : List Char) (h : blankOk l = true) :
    blankOk (stripChars l) = true := by
  have hsuf : l.dropWhile isPySpace <:+ l := List.dropWhile_suffix _
  obtain ⟨u, hu⟩ := hsuf
  obtain ⟨n, hn⟩ := dropTrail_eq_take (l.dropWhile isPySpace)
  unfold stripChars
  rw [hn]
  apply blankOk_take
  apply blankOk_of_append u
  rw [hu]
  exact h

theorem noTwoSp_stripChars (l : List Char) (h : noTwoSp l = true) :
    noTwoSp (stripChars l) = true := by
  have hsuf : l.dropWhile isPySpace <:+ l := List.dropWhile_suffix _
  obtain ⟨u, hu⟩ := hsuf
  obtain ⟨n, hn⟩ := dropTrail_eq_take (l.dropWhile isPySpace)
  unfold stripChars
  rw [hn]
  apply noTwoSp_take
  apply noTwoSp_of_append u
  rw [hu]
  exact h

/- The strip pass is idempotent. -/

theorem head?_take_ne (l : List Char) (n : Nat) (h : l.take n ≠ []) :
    (l.take n).head? = l.head? := by
  cases l with
  | nil => simp at h
  | cons c rest =>
    cases n with
    | zero => simp at h
    | succ m => rw [List.take_succ_cons]; rfl

theorem stripChars_dropWhile_self (X : List Char) :
    (stripChars X).dropWhile isPySpace = stripChars X := by
  cases hS : stripChars X with
  | nil => rfl
  | cons d R =>
    apply dropWhile_eq_self_of_head
    intro d' t' he
    injection he with he1 _
    subst he1
    -- the head of stripChars X is the head of X.dropWhile isPySpace
    obtain ⟨n, hn⟩ := dropTrail_eq_take (X.dropWhile isPySpace)
    have hne : (X.dropWhile isPySpace).take n ≠ [] := by
      rw [← hn]
      show stripChars X ≠ []
      rw [hS]
      simp
    have hh : ((X.dropWhile isPySpace).take n).head? = (X.dropWhile isPySpace).head? :=
      head?_take_ne _ _ hne
    have hd : (X.dropWhile isPySpace).head? = some d := by
      rw [← hh, ← hn]
      show (stripChars X).head? = some d
      rw [hS]
      rfl
    cases hW : X.dropWhile isPySpace with
    | nil => rw [hW] at hd; simp at hd
    | cons w0 W' =>
      rw [hW] at hd
      injection hd with hd1
      rw [← hd1]
      exact dropWhile_head_false _ X w0 W' hW

theorem dropTrail_idem (W : List Char) : dropTrail (dropTrail W) = dropTrail W := by
  show (((W.reverse.dropWhile isPySpace).reverse.reverse.dropWhile isPySpace)).reverse = _
  rw [List.reverse_reverse, List.dropWhile_idempotent]
  rfl

theorem stripChars_idem (X : List Char) : stripChars (stripChars X) = stripChars X := by
  show dropTrail ((stripChars X).dropWhile isPySpace) = stripChars X
  rw [stripChars_dropWhile_self]
  show dropTrail (dropTrail (X.dropWhile isPySpace)) = _
  rw [dropTrail_idem]
  rfl

/- `subNonAscii` is the identity on ASCII input, and the other passes
preserve ASCII-ness. -/

theorem subNonAscii_id_aux :
    ∀ (n : Nat) (l : List Char), l.length ≤ n → (∀ c ∈ l, isAsciiCh c = true) →
      subNonAscii l = l := by
  intro n
  induction n with
  | zero =>
    intro l hl _
    rw [List.length_eq_zero.mp (Nat.le_zero.mp hl), subNonAscii_nil]
  | succ n ih =>
    intro l hl ha
    cases l with
    | nil => rw [subNonAscii_nil]
    | cons c rest =>
      simp only [List.length_cons] at hl
      rw [subNonAscii_cons, if_pos (ha c (List.mem_cons_self c rest)),
        ih rest (by omega) fun d hd => ha d (List.mem_cons_of_mem c hd)]

theorem subNonAscii_id_of_ascii (l : List Char) (h : ∀ c ∈ l, isAsciiCh c = true) :
    subNonAscii l = l :=
  subNonAscii_id_aux l.length l (Nat.le_refl _) h

theorem mem_subBlank_aux :
    ∀ (n : Nat) (l : List Char), l.length ≤ n → ∀ c ∈ subBlank l, c ∈ l ∨ c = '\n' := by
  intro n
  induction n with
  | zero =>
    intro l hl c hc
    rw [List.length_eq_zero.mp (Nat.le_zero.mp hl), subBlank_nil] at hc
    exact absurd hc (by simp)
  | succ n ih =>
    intro l hl c hc
    cases l with
    | nil => rw [subBlank_nil] at hc; exact absurd hc (by simp)
    | cons a rest =>
      simp only [List.length_cons] at hl
      by_cases ha : a = '\n'
      · subst ha
        rw [subBlank_cons, if_pos rfl] at hc
        rcases h : lastNlIdx (rest.takeWhile isPySpace) with _ | j <;> rw [h] at hc
        · rcases List.mem_cons.mp hc with h1 | h1
          · exact Or.inr h1
          · rcases ih rest (by omega) c h1 with h2 | h2
            · exact Or.inl (List.mem_cons_of_mem _ h2)
            · exact Or.inr h2
        · rcases List.mem_cons.mp hc with h1 | h1
          · exact Or.inr h1
          · rcases List.mem_cons.mp h1 with h2 | h2
            · exact Or.inr h2
            · have hlen : (rest.drop (j + 1)).length ≤ n := by
                have := List.length_drop (j + 1) rest
                omega
              rcases ih _ hlen c h2 with h3 | h3
              · exact Or.inl (List.mem_cons_of_mem _ (List.drop_subset _ _ h3))
              · exact Or.inr h3
      · rw [subBlank_cons_nonl _ _ ha] at hc
        rcases List.mem_cons.mp hc with h1 | h1
        · exact Or.inl (by rw [h1]; exact List.mem_cons_self a rest)
        · rcases ih rest (by omega) c h1 with h2 | h2
          · exact Or.inl (List.mem_cons_of_mem _ h2)
          · exact Or.inr h2

theorem mem_subBlank (l : List Char) (c : Char) (h : c ∈ subBlank l) :
    c ∈ l ∨ c = '\n' :=
  mem_subBlank_aux l.length l (Nat.le_refl _) c h

/- Assembly: the normalizer is the identity on its own ASCII output. -/

theorem clean_text_fixed (y : List Char)
    (h1 : blankOk y = true) (h2 : noTwoSp y = true)
    (h3 : ∀ c ∈ y, isAsciiCh c = true) (h4 : stripChars y = y) :
    clean_text y = y := by
  unfold clean_text
  by_cases hy : y = []
  · rw [if_pos hy, hy]
  · rw [if_neg hy, subBlank_id_of_blankOk y h1, subSpaces_id_of_noTwoSp y h2,
      subNonAscii_id_of_ascii y h3, h4]

/-- Claim C1 (amended): the text normalizer is idempotent on every input
containing only ASCII characters.  (On inputs with non-ASCII characters a
second application can keep collapsing the spaces introduced by the
non-ASCII pass, as the counterexample shows.) -/
theorem clean_text_idempotent_ascii (l : List Char)
    (h : ∀ c ∈ l, isAsciiCh c = true) :
    clean_text (clean_text l) = clean_text l := by
  by_cases hl : l = []
  · rw [hl]
    rfl
  · have hsb_ascii : ∀ c ∈ subBlank l, isAsciiCh c = true := by
      intro c hc
      rcases mem_subBlank l c hc with h1 | h1
      · exact h c h1
      · rw [h1]; decide
    have hss_ascii : ∀ c ∈ subSpaces (subBlank l), isAsciiCh c = true := by
      intro c hc
      rcases mem_subSpaces _ c hc with h1 | h1
      · exact hsb_ascii c h1
      · rw [h1]; decide
    have hy : clean_text l = stripChars (subSpaces (subBlank l)) := by
      unfold clean_text
      rw [if_neg hl, subNonAscii_id_of_ascii _ hss_ascii]
    have hb : blankOk (clean_text l) = true := by
      rw [hy]
      exact blankOk_stripChars _ (blankOk_subSpaces _ (blankOk_subBlank l))
    have hn2 : noTwoSp (clean_text l) = true := by
      rw [hy]
      exact noTwoSp_stripChars _ (noTwoSp_subSpaces _)
    have hasc : ∀ c ∈ clean_text l, isAsciiCh c = true := by
      intro c hc
      rw [hy] at hc
      exact hss_ascii c (mem_stripChars c _ hc)
    have hst : stripChars (clean_text l) = clean_text l := by
      rw [hy, stripChars_idem]
    exact clean_text_fixed _ hb hn2 hasc hst

theorem clean_text_idempotent_ascii_witness :
    clean_text (clean_text "Revenue: $5\n\n\nNet  income".toList) =
      clean_text "Revenue: $5\n\n\nNet  income".toList :=
  clean_text_idempotent_ascii "Revenue: $5\n\n\nNet  income".toList (by decide)
